import Mathlib

set_option maxRecDepth 4096

/-!
Verification of the `Hash` value object from `src/model/primitives/hash.ts`
(Zenon TypeScript SDK).

The TypeScript class stores an immutable 32-byte `Uint8Array`.  We embed a
`Uint8Array` as `List (Fin 256)` (its elements are bytes by construction) and
a JavaScript string as `List Char`.  Fallible operations (the validating
private constructor, `parse`, and the hex decoder, which throw in JS) are
embedded as `Except HashError _`.  The hex encoder/decoder collaborator
(`encodeHex`/`decodeHex` from `@std/encoding`) is embedded from its Deno
standard-library source: `decodeHex` scans character pairs left to right,
rejecting the first non-hex character, and rejects odd-length input
(hex digits are ASCII, so scanning characters coincides with scanning the
UTF-8 bytes the original works on); `encodeHex` emits two lowercase hex
digits per byte via a 16-entry table.
-/

/-- A byte of a `Uint8Array`. -/
abbrev Byte := Fin 256

/-- The distinct failure exits of the embedded code: the validating
constructor's length error (its message carries the expected and actual
byte counts) and the hex decoder's two errors (invalid character, odd
input length). -/
inductive HashError where
  | invalidLength (expected actual : Nat)
  | invalidHexChar (c : Char)
  | invalidHexOddLength
deriving DecidableEq

/-- `fromHexChar` of the Deno hex codec: value of one hex digit
(`0`-`9`, `a`-`f`, `A`-`F`), or failure. -/
def fromHexChar (c : Char) : Option (Fin 16) :=
  if h : 48 ≤ c.toNat ∧ c.toNat ≤ 57 then some ⟨c.toNat - 48, by omega⟩
  else if h : 97 ≤ c.toNat ∧ c.toNat ≤ 102 then some ⟨c.toNat - 97 + 10, by omega⟩
  else if h : 65 ≤ c.toNat ∧ c.toNat ≤ 70 then some ⟨c.toNat - 65 + 10, by omega⟩
  else none

/-- Recombination `(a << 4) | b` of two hex-digit values into a byte. -/
def hexPair (a b : Fin 16) : Byte :=
  ⟨(a.val <<< 4) ||| b.val, by
    have ha := a.isLt
    have hb := b.isLt
    have h1 : a.val <<< 4 < 256 := by
      rw [Nat.shiftLeft_eq]
      show a.val * 16 < 256
      omega
    exact @Nat.or_lt_two_pow _ _ 8 h1 (by omega)⟩

/-- `decodeHex` of the Deno hex codec: decode characters two at a time;
an invalid character is reported before an odd trailing length. -/
def decodeHex : List Char → Except HashError (List Byte)
  | [] => .ok []
  | [c] =>
    match fromHexChar c with
    | none => .error (.invalidHexChar c)
    | some _ => .error .invalidHexOddLength
  | a :: b :: rest =>
    match fromHexChar a, fromHexChar b with
    | none, _ => .error (.invalidHexChar a)
    | some _, none => .error (.invalidHexChar b)
    | some ha, some hb => (decodeHex rest).map (fun bs => hexPair ha hb :: bs)

/-- The lowercase digit table `"0123456789abcdef"` of the Deno hex codec. -/
def hexTable : List Char :=
  "0123456789abcdef".data

/-- The two hex digits `hexTable[v >> 4]`, `hexTable[v & 0x0f]` of one byte. -/
def encodeHexByte (v : Byte) : Char × Char :=
  (hexTable.get ⟨v.val >>> 4, by
      have := v.isLt
      rw [Nat.shiftRight_eq_div_pow]
      show v.val / 16 < 16
      omega⟩,
   hexTable.get ⟨v.val &&& 15, by
      have h := @Nat.and_le_right v.val 15
      show v.val &&& 15 < 16
      omega⟩)

/-- `encodeHex` of the Deno hex codec: two lowercase hex digits per byte. -/
def encodeHex : List Byte → List Char
  | [] => []
  | v :: rest => (encodeHexByte v).1 :: (encodeHexByte v).2 :: encodeHex rest

/-- `Hash.LENGTH = 32`. -/
def HashLENGTH : Nat := 32

/-- The `Hash` value object: its `Uint8Array` of bytes, together with the
invariant the private constructor establishes (`hash.length === Hash.LENGTH`).
The constructor's defensive copy is the identity on an immutable list. -/
structure Hash where
  hash : List Byte
  size_eq : hash.length = HashLENGTH

/-- The private constructor: validates the length and otherwise throws
`Hash validation failed: expected 32 bytes, but got N.`. -/
def Hash.construct (bytes : List Byte) : Except HashError Hash :=
  if h : bytes.length = HashLENGTH then .ok ⟨bytes, h⟩
  else .error (.invalidLength HashLENGTH bytes.length)

/-- `Hash.fromBytes`: delegates to the validating constructor. -/
def Hash.fromBytes (bytes : List Byte) : Except HashError Hash :=
  Hash.construct bytes

/-- The `cleanHex` local of `Hash.parse`: strips a leading `"0x"` (the source
tests `hex.startsWith("0x")`, so only the lowercase form is stripped). -/
def parseClean (hex : List Char) : List Char :=
  if hex.take 2 = ['0', 'x'] then hex.drop 2 else hex

/-- `Hash.parse`: strips an optional leading `"0x"`, hex-decodes, and
validates via the constructor. -/
def Hash.parse (hex : List Char) : Except HashError Hash :=
  (decodeHex (parseClean hex)).bind Hash.construct

/-- `Hash.digest`: the SHA3-256 collaborator (`crypto.subtle.digest`) is
external to the repository, so its output buffer is the parameter here; the
source wraps that buffer in the validating private constructor. -/
def Hash.digest (digestOutput : List Byte) : Except HashError Hash :=
  Hash.construct digestOutput

/-- `Hash.getBytes`: a copy of the internal bytes. -/
def Hash.getBytes (h : Hash) : List Byte :=
  h.hash

/-- `Hash.toString`: lowercase hex encoding of the 32 bytes, no prefix. -/
def Hash.toString (h : Hash) : List Char :=
  encodeHex h.hash

/-- `Hash.toShortString`: `hex.substring(0, 6) + "..." + hex.substring(hex.length - 6)`. -/
def Hash.toShortString (h : Hash) : List Char :=
  let hex := Hash.toString h
  hex.take 6 ++ ['.', '.', '.'] ++ hex.drop (hex.length - 6)

/-- The loop of `Hash.compareTo`: walk the two buffers in step from index 0;
at the first differing pair return `-1` or `1`, after the last pair return `0`. -/
def compareBytes : List Byte → List Byte → Int
  | x :: xs, y :: ys => if x ≠ y then (if x < y then -1 else 1) else compareBytes xs ys
  | _, _ => 0

/-- `Hash.compareTo`. -/
def Hash.compareTo (a b : Hash) : Int :=
  compareBytes a.hash b.hash

/-- The per-index differences `this.hash[i] ^ other.hash[i]` examined by
`Hash.equals`, in loop order. -/
def xorTrace (a b : Hash) : List Nat :=
  List.zipWith (fun x y => x.val ^^^ y.val) a.hash b.hash

/-- The accumulator loop of `Hash.equals`: `diff |= d` over the trace. -/
def ctDiff : List Nat → Nat → Nat
  | [], diff => diff
  | d :: ds, diff => ctDiff ds (diff ||| d)

/-- `Hash.equals`: `false` on an absent argument, otherwise OR-accumulate
the per-byte XOR differences over all 32 indices and test the result
against zero. -/
def Hash.equals (a : Hash) : Option Hash → Bool
  | none => false
  | some b => ctDiff (xorTrace a b) 0 == 0

/-- `Hash.toJSON`: returns the same value as `toString`. -/
def Hash.toJSON (h : Hash) : List Char :=
  Hash.toString h

/-- `emptyHash`: the module-level constant, `Hash.parse` of 64 zeros. -/
def emptyHash : Except HashError Hash :=
  Hash.parse (List.replicate 64 '0')

instance : DecidableEq Hash := fun a b =>
  if h : a.hash = b.hash then .isTrue (by cases a; cases b; simp_all)
  else .isFalse (fun e => h (congrArg Hash.hash e))

instance : DecidableEq (Except HashError Hash) := fun a b =>
  match a, b with
  | .ok x, .ok y =>
    if h : x = y then .isTrue (by rw [h]) else .isFalse (by simp [h])
  | .error x, .error y =>
    if h : x = y then .isTrue (by rw [h]) else .isFalse (by simp [h])
  | .ok _, .error _ => .isFalse (by simp)
  | .error _, .ok _ => .isFalse (by simp)

/- Concrete values used in witnesses and examples. -/

/-- 32 zero bytes. -/
def zeroBytes : List Byte := List.replicate 32 0

/-- 31 zero bytes then `0x01`. -/
def oneBytes : List Byte := List.replicate 31 0 ++ [1]

/-- 31 zero bytes then `0x02`. -/
def twoBytes : List Byte := List.replicate 31 0 ++ [2]

/-- The all-zero hash. -/
def zeroHash : Hash := ⟨zeroBytes, by decide⟩

/-- The hash whose last byte is `0x01`. -/
def oneHash : Hash := ⟨oneBytes, by decide⟩

/-- The hash whose last byte is `0x02`. -/
def twoHash : Hash := ⟨twoBytes, by decide⟩

/-- 64 `'0'` characters. -/
def zeros64 : List Char := List.replicate 64 '0'

/- General lemmas. -/

/-- Two `Hash` values with equal byte lists are equal (the length proof is
irrelevant). -/
theorem Hash.ext_hash : ∀ {a b : Hash}, a.hash = b.hash → a = b := by
  intro a b h
  cases a
  cases b
  simpa using h

theorem hexTable_hi_lt : ∀ v : Byte, v.val >>> 4 < hexTable.length := by decide

theorem hexTable_lo_lt : ∀ v : Byte, v.val &&& 15 < hexTable.length := by decide

/- Lemmas about the hex codec. -/

theorem fromHexChar_encode_hi :
    ∀ v : Byte, fromHexChar (encodeHexByte v).1 = some ⟨v.val >>> 4, hexTable_hi_lt v⟩ := by
  decide

theorem fromHexChar_encode_lo :
    ∀ v : Byte, fromHexChar (encodeHexByte v).2 = some ⟨v.val &&& 15, hexTable_lo_lt v⟩ := by
  decide

theorem hexPair_encode :
    ∀ v : Byte, hexPair ⟨v.val >>> 4, hexTable_hi_lt v⟩ ⟨v.val &&& 15, hexTable_lo_lt v⟩ = v := by
  decide

/-- Decoding inverts encoding on any byte list. -/
theorem decodeHex_encodeHex (l : List Byte) : decodeHex (encodeHex l) = .ok l := by
  induction l with
  | nil => rfl
  | cons v rest ih =>
    show decodeHex ((encodeHexByte v).1 :: (encodeHexByte v).2 :: encodeHex rest) = _
    rw [decodeHex, fromHexChar_encode_hi, fromHexChar_encode_lo]
    simp [ih, hexPair_encode, Except.map]

theorem encodeHex_length (l : List Byte) : (encodeHex l).length = 2 * l.length := by
  induction l with
  | nil => rfl
  | cons v rest ih => simp [encodeHex, ih]; omega

theorem mem_hexTable_of_mem_encodeHex {l : List Byte} {c : Char} (h : c ∈ encodeHex l) :
    c ∈ hexTable := by
  induction l with
  | nil => simp [encodeHex] at h
  | cons v rest ih =>
    simp only [encodeHex, List.mem_cons] at h
    rcases h with h | h | h
    · rw [h]; exact List.get_mem hexTable _ _
    · rw [h]; exact List.get_mem hexTable _ _
    · exact ih h

theorem x_not_mem_hexTable : 'x' ∉ hexTable := by decide

/-- The encoding of a nonempty byte list never carries the `"0x"` prefix:
its second character is a hex digit and `'x'` is not. -/
theorem encodeHex_take_two_ne (v : Byte) (rest : List Byte) :
    (encodeHex (v :: rest)).take 2 ≠ ['0', 'x'] := by
  intro hcontra
  simp only [encodeHex, List.take] at hcontra
  have h2 : (encodeHexByte v).2 = 'x' := by
    have := congrArg (fun l => l.getD 1 ' ') hcontra
    simpa using this
  have : 'x' ∈ hexTable := by
    rw [← h2]
    exact List.get_mem hexTable _ _
  exact x_not_mem_hexTable this

/-- Induction on a character list two elements at a time, matching the
recursion pattern of `decodeHex`. -/
theorem twoStepInduction {motive : List Char → Prop} (empty : motive [])
    (single : ∀ c, motive [c])
    (pair : ∀ a b rest, motive rest → motive (a :: b :: rest)) :
    ∀ l, motive l
  | [] => empty
  | [c] => single c
  | a :: b :: rest => pair a b rest (twoStepInduction empty single pair rest)

/-- Completeness of the decoder: an even-length string of hex digits decodes,
to one byte per character pair. -/
theorem decodeHex_ok_of_valid (l : List Char)
    (hvalid : ∀ c ∈ l, (fromHexChar c).isSome) (heven : l.length % 2 = 0) :
    ∃ bs, decodeHex l = .ok bs ∧ bs.length = l.length / 2 := by
  induction l using twoStepInduction with
  | empty => exact ⟨[], rfl, rfl⟩
  | single c => simp at heven
  | pair a b rest ih =>
    have ha := hvalid a (by simp)
    have hb := hvalid b (by simp)
    obtain ⟨va, hva⟩ := Option.isSome_iff_exists.mp ha
    obtain ⟨vb, hvb⟩ := Option.isSome_iff_exists.mp hb
    have heven' : rest.length % 2 = 0 := by
      simp only [List.length_cons] at heven
      omega
    obtain ⟨bs, hbs, hlen⟩ := ih (fun c hc => hvalid c (by simp [hc])) heven'
    refine ⟨hexPair va vb :: bs, ?_, ?_⟩
    · simp [decodeHex, hva, hvb, hbs, Except.map]
    · simp only [List.length_cons, hlen]
      omega

/-- Soundness of the decoder: a successful decode implies every character was
a hex digit, the length was even, and one byte was produced per pair. -/
theorem decodeHex_ok_inv (l : List Char) (bs : List Byte) (h : decodeHex l = .ok bs) :
    (∀ c ∈ l, (fromHexChar c).isSome) ∧ l.length % 2 = 0 ∧ bs.length = l.length / 2 := by
  induction l using twoStepInduction generalizing bs with
  | empty =>
    simp only [decodeHex, Except.ok.injEq] at h
    subst h
    simp
  | single c =>
    rcases hfc : fromHexChar c with _ | v <;> simp [decodeHex, hfc] at h
  | pair a b rest ih =>
    rcases hfa : fromHexChar a with _ | va
    · simp [decodeHex, hfa] at h
    rcases hfb : fromHexChar b with _ | vb
    · simp [decodeHex, hfa, hfb] at h
    rcases hrest : decodeHex rest with e | bs'
    · simp [decodeHex, hfa, hfb, hrest, Except.map] at h
    simp only [decodeHex, hfa, hfb, hrest, Except.map, Except.ok.injEq] at h
    obtain ⟨hall, heven, hlen⟩ := ih bs' hrest
    subst h
    refine ⟨?_, ?_, ?_⟩
    · intro c hc
      simp only [List.mem_cons] at hc
      rcases hc with rfl | rfl | hc
      · simp [hfa]
      · simp [hfb]
      · exact hall c hc
    · simp only [List.length_cons]
      omega
    · simp only [List.length_cons, hlen]
      omega

/- Lemmas about the validating constructor. -/

theorem construct_ok (bytes : List Byte) (h : bytes.length = HashLENGTH) :
    Hash.construct bytes = .ok ⟨bytes, h⟩ := by
  simp [Hash.construct, h]

theorem construct_err (bytes : List Byte) (h : bytes.length ≠ HashLENGTH) :
    Hash.construct bytes = .error (.invalidLength HashLENGTH bytes.length) := by
  simp [Hash.construct, h]

/- Lemmas about the comparison loop. -/

theorem compareBytes_self (xs : List Byte) : compareBytes xs xs = 0 := by
  induction xs with
  | nil => rfl
  | cons x xs ih => simp [compareBytes, ih]

theorem compareBytes_cons_lt {x y : Byte} (xs ys : List Byte) (h : x < y) :
    compareBytes (x :: xs) (y :: ys) = -1 := by
  simp [compareBytes, ne_of_lt h, h]

theorem compareBytes_cons_eq (x : Byte) (xs ys : List Byte) :
    compareBytes (x :: xs) (x :: ys) = compareBytes xs ys := by
  simp [compareBytes]

theorem compareBytes_cases (xs ys : List Byte) :
    compareBytes xs ys = -1 ∨ compareBytes xs ys = 0 ∨ compareBytes xs ys = 1 := by
  induction xs generalizing ys with
  | nil => simp [compareBytes]
  | cons x xs ih =>
    cases ys with
    | nil => simp [compareBytes]
    | cons y ys =>
      by_cases hxy : x = y
      · subst hxy
        simpa [compareBytes] using ih ys
      · by_cases hlt : x < y <;> simp [compareBytes, hxy, hlt]

theorem compareBytes_eq_zero (xs : List Byte) :
    ∀ ys : List Byte, xs.length = ys.length → (compareBytes xs ys = 0 ↔ xs = ys) := by
  induction xs with
  | nil =>
    intro ys hlen
    cases ys with
    | nil => simp [compareBytes]
    | cons y ys => simp at hlen
  | cons x xs ih =>
    intro ys hlen
    cases ys with
    | nil => simp at hlen
    | cons y ys =>
      by_cases hxy : x = y
      · subst hxy
        rw [compareBytes_cons_eq]
        rw [ih ys (by simpa using hlen)]
        simp
      · by_cases hlt : x < y <;> simp [compareBytes, hxy, hlt]

theorem compareBytes_antisymm (xs : List Byte) :
    ∀ ys : List Byte, compareBytes ys xs = -compareBytes xs ys := by
  induction xs with
  | nil =>
    intro ys
    cases ys <;> simp [compareBytes]
  | cons x xs ih =>
    intro ys
    cases ys with
    | nil => simp [compareBytes]
    | cons y ys =>
      rcases lt_trichotomy x y with hlt | heq | hgt
      · have hne : x ≠ y := ne_of_lt hlt
        have hne' : y ≠ x := ne_of_gt hlt
        simp [compareBytes, hne, hne', hlt, hlt.asymm]
      · subst heq
        rw [compareBytes_cons_eq, compareBytes_cons_eq]
        exact ih ys
      · have hne : x ≠ y := ne_of_gt hgt
        have hne' : y ≠ x := ne_of_lt hgt
        simp [compareBytes, hne, hne', hgt, hgt.asymm]

/-- A `-1` result means the first differing byte was smaller, or the heads
agreed and the tails compare `-1`. -/
theorem compareBytes_neg_one_inv {x y : Byte} {xs ys : List Byte}
    (h : compareBytes (x :: xs) (y :: ys) = -1) :
    x < y ∨ (x = y ∧ compareBytes xs ys = -1) := by
  by_cases hxy : x = y
  · subst hxy
    right
    exact ⟨rfl, by simpa [compareBytes_cons_eq] using h⟩
  · left
    by_cases hlt : x < y
    · exact hlt
    · simp [compareBytes, hxy, hlt] at h

theorem compareBytes_trans (xs : List Byte) :
    ∀ ys zs : List Byte, compareBytes xs ys = -1 → compareBytes ys zs = -1 →
    compareBytes xs zs = -1 := by
  induction xs with
  | nil =>
    intro ys zs h1 _
    simp [compareBytes] at h1
  | cons x xs ih =>
    intro ys zs h1 h2
    cases ys with
    | nil => simp [compareBytes] at h1
    | cons y ys =>
      cases zs with
      | nil => simp [compareBytes] at h2
      | cons z zs =>
        rcases compareBytes_neg_one_inv h1 with hlt1 | ⟨rfl, h1t⟩
        · rcases compareBytes_neg_one_inv h2 with hlt2 | ⟨rfl, h2t⟩
          · exact compareBytes_cons_lt xs zs (lt_trans hlt1 hlt2)
          · exact compareBytes_cons_lt xs zs hlt1
        · rcases compareBytes_neg_one_inv h2 with hlt2 | ⟨rfl, h2t⟩
          · exact compareBytes_cons_lt xs zs hlt2
          · rw [compareBytes_cons_eq]
            exact ih ys zs h1t h2t

/-- The comparison is decided at the first differing index. -/
theorem compareBytes_first_diff (i : Nat) :
    ∀ xs ys : List Byte, i < xs.length → i < ys.length →
    (∀ j, j < i → xs.getD j 0 = ys.getD j 0) →
    xs.getD i 0 ≠ ys.getD i 0 →
    compareBytes xs ys = if xs.getD i 0 < ys.getD i 0 then (-1 : Int) else 1 := by
  induction i with
  | zero =>
    intro xs ys hx hy _ hdiff
    cases xs with
    | nil => simp at hx
    | cons x xs =>
      cases ys with
      | nil => simp at hy
      | cons y ys =>
        simp only [List.getD_cons_zero] at hdiff ⊢
        simp [compareBytes, hdiff]
  | succ i ih =>
    intro xs ys hx hy hpre hdiff
    cases xs with
    | nil => simp at hx
    | cons x xs =>
      cases ys with
      | nil => simp at hy
      | cons y ys =>
        have hhead : x = y := by
          have := hpre 0 (Nat.succ_pos i)
          simpa using this
        subst hhead
        rw [compareBytes_cons_eq]
        simp only [List.getD_cons_succ] at hdiff ⊢
        exact ih xs ys (by simpa using hx) (by simpa using hy)
          (fun j hj => by
            have := hpre (j + 1) (by omega)
            simpa using this)
          hdiff

/- Lemmas about the constant-time equality loop. -/

theorem nat_lor_eq_zero (a b : Nat) : a ||| b = 0 ↔ a = 0 ∧ b = 0 := by
  constructor
  · intro h
    constructor
    · refine Nat.zero_of_testBit_eq_false fun i => ?_
      have hbit := congrArg (fun n => Nat.testBit n i) h
      simp only [Nat.testBit_lor, Nat.zero_testBit, Bool.or_eq_false_iff] at hbit
      exact hbit.1
    · refine Nat.zero_of_testBit_eq_false fun i => ?_
      have hbit := congrArg (fun n => Nat.testBit n i) h
      simp only [Nat.testBit_lor, Nat.zero_testBit, Bool.or_eq_false_iff] at hbit
      exact hbit.2
  · rintro ⟨rfl, rfl⟩
    rfl

/-- The OR-accumulator ends at zero exactly when it started at zero and every
per-byte difference was zero. -/
theorem ctDiff_eq_zero (ds : List Nat) :
    ∀ acc : Nat, (ctDiff ds acc = 0 ↔ acc = 0 ∧ ∀ d ∈ ds, d = 0) := by
  induction ds with
  | nil => intro acc; simp [ctDiff]
  | cons d ds ih =>
    intro acc
    rw [show ctDiff (d :: ds) acc = ctDiff ds (acc ||| d) from rfl, ih, nat_lor_eq_zero]
    constructor
    · rintro ⟨⟨ha, hd⟩, hall⟩
      refine ⟨ha, fun x hx => ?_⟩
      rcases List.mem_cons.mp hx with rfl | hx
      · exact hd
      · exact hall x hx
    · rintro ⟨ha, hall⟩
      exact ⟨⟨ha, hall d (by simp)⟩, fun x hx => hall x (by simp [hx])⟩

/-- All pairwise XOR differences vanish exactly when the two equal-length byte
lists are equal. -/
theorem zipWith_xor_eq_zero (xs : List Byte) :
    ∀ ys : List Byte, xs.length = ys.length →
    ((∀ d ∈ List.zipWith (fun x y => x.val ^^^ y.val) xs ys, d = 0) ↔ xs = ys) := by
  induction xs with
  | nil =>
    intro ys hlen
    cases ys with
    | nil => simp
    | cons y ys => simp at hlen
  | cons x xs ih =>
    intro ys hlen
    cases ys with
    | nil => simp at hlen
    | cons y ys =>
      simp only [List.zipWith_cons_cons, List.mem_cons, List.cons.injEq]
      rw [← ih ys (by simpa using hlen)]
      constructor
      · intro h
        refine ⟨?_, fun d hd => h d (Or.inr hd)⟩
        exact Fin.ext (Nat.xor_eq_zero.mp (h _ (Or.inl rfl)))
      · rintro ⟨rfl, hall⟩
        intro d hd
        rcases hd with rfl | hd
        · simp
        · exact hall d hd

/-- `equals` on a present argument is byte-list equality. -/
theorem equals_eq_true_iff (a b : Hash) : Hash.equals a (some b) = true ↔ a.hash = b.hash := by
  have hlen : a.hash.length = b.hash.length := by rw [a.size_eq, b.size_eq]
  rw [show Hash.equals a (some b) = (ctDiff (xorTrace a b) 0 == 0) from rfl, beq_iff_eq,
    ctDiff_eq_zero]
  simp only [true_and]
  exact zipWith_xor_eq_zero a.hash b.hash hlen

/- Claim theorems. -/

/-- C1: round-trip law. For every 32-byte sequence `b`, `fromBytes b`
succeeds with the Hash holding `b`, and `parse` of its `toString` yields the
same Hash back; `toString` is the 64-character lowercase hexadecimal encoding
with no prefix (every emitted character comes from the lowercase digit
table). -/
theorem roundtrip_parse_fromBytes_toString (b : List Byte) (hb : b.length = 32) :
    Hash.fromBytes b = .ok ⟨b, hb⟩ ∧
    Hash.parse (Hash.toString ⟨b, hb⟩) = .ok ⟨b, hb⟩ ∧
    (Hash.toString ⟨b, hb⟩).length = 64 ∧
    ∀ c ∈ Hash.toString ⟨b, hb⟩, c ∈ hexTable := by
  refine ⟨construct_ok b hb, ?_, ?_, ?_⟩
  · cases b with
    | nil => simp at hb
    | cons v rest =>
      show (decodeHex (parseClean (encodeHex (v :: rest)))).bind Hash.construct = _
      rw [parseClean, if_neg (encodeHex_take_two_ne v rest), decodeHex_encodeHex]
      exact construct_ok _ hb
  · show (encodeHex b).length = 64
    rw [encodeHex_length, hb]
  · intro c hc
    exact mem_hexTable_of_mem_encodeHex hc

/-- C1 witness at the all-zero 32-byte sequence. -/
theorem roundtrip_parse_fromBytes_toString_witness :
    Hash.fromBytes zeroBytes = .ok zeroHash ∧
    Hash.parse (Hash.toString zeroHash) = .ok zeroHash := by
  have h := roundtrip_parse_fromBytes_toString zeroBytes (by decide)
  exact ⟨h.1, h.2.1⟩

/-- C2: `fromBytes` length invariant. A 32-byte input yields the Hash holding
exactly those bytes; any other length fails with the length-validation error
carrying the expected length 32 and the actual length, producing no Hash. -/
theorem fromBytes_length_spec (b : List Byte) :
    (∀ h : b.length = 32, Hash.fromBytes b = .ok ⟨b, h⟩) ∧
    (b.length ≠ 32 → Hash.fromBytes b = .error (.invalidLength 32 b.length)) :=
  ⟨fun h => construct_ok b h, fun h => construct_err b h⟩

/-- C2 witness: a 32-byte input succeeds, an empty input fails with the
length error carrying 32 and 0. -/
theorem fromBytes_length_spec_witness :
    Hash.fromBytes zeroBytes = .ok zeroHash ∧
    Hash.fromBytes [] = .error (.invalidLength 32 0) :=
  ⟨(fromBytes_length_spec zeroBytes).1 (by decide),
   (fromBytes_length_spec []).2 (by decide)⟩

/-- C5: `equals` against an absent argument returns `false` (and, being a
total function, never throws); against a present argument it returns `true`
exactly when all 32 byte pairs agree. -/
theorem equals_absent_spec (a : Hash) :
    Hash.equals a none = false ∧
    ∀ b : Hash, (Hash.equals a (some b) = true ↔ a.hash = b.hash) :=
  ⟨rfl, fun b => equals_eq_true_iff a b⟩

/-- C7: constant-time structure of `equals`. The trace of per-byte XOR
differences examined by the loop always has length 32 — every byte pair is
examined regardless of earlier mismatches — the result is the OR-accumulation
of that whole trace tested against zero, and the accumulator vanishes exactly
when every per-byte difference does. -/
theorem equals_constant_time (a b : Hash) :
    (xorTrace a b).length = 32 ∧
    Hash.equals a (some b) = (ctDiff (xorTrace a b) 0 == 0) ∧
    (ctDiff (xorTrace a b) 0 = 0 ↔ ∀ d ∈ xorTrace a b, d = 0) := by
  refine ⟨?_, rfl, ?_⟩
  · rw [xorTrace, List.length_zipWith, a.size_eq, b.size_eq]
    rfl
  · rw [ctDiff_eq_zero]
    simp

/-- C8: the JSON-serialization hook returns exactly `toString`, the plain
64-character hex string (all characters from the lowercase digit table), not
an object with internal fields. -/
theorem toJSON_spec (h : Hash) :
    Hash.toJSON h = Hash.toString h ∧
    (Hash.toJSON h).length = 64 ∧
    ∀ c ∈ Hash.toJSON h, c ∈ hexTable := by
  refine ⟨rfl, ?_, ?_⟩
  · show (encodeHex h.hash).length = 64
    rw [encodeHex_length, h.size_eq]
    rfl
  · intro c hc
    exact mem_hexTable_of_mem_encodeHex hc

/-- C9: `toShortString` is the first 6 characters of `toString`, three
literal dots, then the last 6 characters (15 characters in all); on the Hash
whose bytes are all zero except a final 1 it yields `"000000...000001"`. -/
theorem toShortString_spec (h : Hash) :
    Hash.toShortString h =
      (Hash.toString h).take 6 ++ ['.', '.', '.'] ++ (Hash.toString h).drop 58 ∧
    (Hash.toShortString h).length = 15 ∧
    Hash.toShortString oneHash = "000000...000001".data := by
  have hlen : (Hash.toString h).length = 64 := by
    rw [Hash.toString, encodeHex_length, h.size_eq]
    rfl
  refine ⟨?_, ?_, by decide⟩
  · show (Hash.toString h).take 6 ++ ['.', '.', '.'] ++
      (Hash.toString h).drop ((Hash.toString h).length - 6) = _
    rw [hlen]
  · show ((Hash.toString h).take 6 ++ ['.', '.', '.'] ++
      (Hash.toString h).drop ((Hash.toString h).length - 6)).length = 15
    simp [hlen]

/-- C10: the digest path feeds the collaborator's output buffer through the
same validating constructor, so a buffer of length other than 32 raises the
length-validation error and no Hash is produced; any Hash obtained from
`digest` holds exactly the collaborator's bytes, and every Hash value that
exists has exactly 32 bytes. -/
theorem digest_length_spec (outBytes : List Byte) :
    (outBytes.length ≠ 32 → Hash.digest outBytes = .error (.invalidLength 32 outBytes.length)) ∧
    (∀ hsh : Hash, Hash.digest outBytes = .ok hsh → hsh.hash = outBytes) ∧
    (∀ hsh : Hash, hsh.hash.length = 32) := by
  refine ⟨fun h => construct_err outBytes h, ?_, fun hsh => hsh.size_eq⟩
  intro hsh h
  rw [Hash.digest, Hash.construct] at h
  split at h
  · simp only [Except.ok.injEq] at h
    rw [← h]
  · simp at h

/-- C10 witness: an empty collaborator output is rejected with the length
error carrying 32 and 0; a well-formed output round-trips. -/
theorem digest_length_spec_witness :
    Hash.digest [] = .error (.invalidLength 32 0) ∧
    zeroHash.hash = zeroBytes :=
  ⟨(digest_length_spec []).1 (by decide),
   (digest_length_spec zeroBytes).2.1 zeroHash (by decide)⟩

theorem fromHexChar_lower_x : fromHexChar 'x' = none := by decide

theorem fromHexChar_upper_X : fromHexChar 'X' = none := by decide

theorem fromHexChar_digit_zero : fromHexChar '0' = some 0 := by decide

/-- C3 counterexample: the claim requires `parse ("0X" ++ h)` to succeed for
every valid 64-character hex string `h`, but on the 64-zeros string the code
only strips the lowercase `"0x"` prefix, so the uppercase-prefixed input
reaches the hex decoder and fails on the `'X'` character, while the bare
string parses fine. -/
theorem parse_upper_prefix_counterexample :
    Hash.parse ('0' :: 'X' :: zeros64) = .error (.invalidHexChar 'X') ∧
    Hash.parse zeros64 = .ok zeroHash := by
  constructor
  · decide
  · decide

/-- C3 (amended): for every valid 64-character hex string, `parse` of the
bare string and of the `"0x"`-prefixed string succeed and produce the same
Hash; the uppercase `"0X"` prefix is not stripped, so that input fails on the
`'X'` character. -/
theorem parse_hex_prefix_tolerance (hex : List Char) (hlen : hex.length = 64)
    (hvalid : ∀ c ∈ hex, (fromHexChar c).isSome) :
    ∃ hsh : Hash, Hash.parse hex = .ok hsh ∧
      Hash.parse ('0' :: 'x' :: hex) = .ok hsh ∧
      Hash.parse ('0' :: 'X' :: hex) = .error (.invalidHexChar 'X') := by
  have hclean : parseClean hex = hex := by
    rw [parseClean, if_neg]
    intro hcontra
    have hx_mem : 'x' ∈ hex := List.take_subset 2 hex (by rw [hcontra]; simp)
    have := hvalid 'x' hx_mem
    rw [fromHexChar_lower_x] at this
    simp at this
  obtain ⟨bs, hbs, hbslen⟩ := decodeHex_ok_of_valid hex hvalid (by omega)
  have hbs32 : bs.length = HashLENGTH := by
    rw [hbslen, hlen]
    rfl
  refine ⟨⟨bs, hbs32⟩, ?_, ?_, ?_⟩
  · rw [Hash.parse, hclean, hbs]
    exact construct_ok bs hbs32
  · have hclean2 : parseClean ('0' :: 'x' :: hex) = hex := by
      rw [parseClean, if_pos] <;> simp
    rw [Hash.parse, hclean2, hbs]
    exact construct_ok bs hbs32
  · have hclean3 : parseClean ('0' :: 'X' :: hex) = '0' :: 'X' :: hex := by
      rw [parseClean, if_neg]
      simp
    rw [Hash.parse, hclean3, decodeHex, fromHexChar_digit_zero, fromHexChar_upper_X]
    rfl

/-- C3 witness at the 64-zeros hex string. -/
theorem parse_hex_prefix_tolerance_witness :
    ∃ hsh : Hash, Hash.parse zeros64 = .ok hsh ∧
      Hash.parse ('0' :: 'x' :: zeros64) = .ok hsh ∧
      Hash.parse ('0' :: 'X' :: zeros64) = .error (.invalidHexChar 'X') :=
  parse_hex_prefix_tolerance zeros64 (by decide) (by decide)

/-- C4: `compareTo` is the unsigned byte-wise lexicographic comparison from
byte 0 — decided at the first differing index, `-1`/`1`/`0` valued — it is
reflexive-zero, antisymmetric, transitive (a total order), and consistent
with `equals`: `equals` holds iff `compareTo` returns 0. -/
theorem compareTo_spec (a b c : Hash) :
    Hash.compareTo a a = 0 ∧
    (Hash.compareTo a b = -1 ∨ Hash.compareTo a b = 0 ∨ Hash.compareTo a b = 1) ∧
    Hash.compareTo b a = -Hash.compareTo a b ∧
    (Hash.compareTo a b = 0 ↔ a = b) ∧
    (Hash.compareTo a b = -1 → Hash.compareTo b c = -1 → Hash.compareTo a c = -1) ∧
    (∀ i, i < 32 → (∀ j, j < i → a.hash.getD j 0 = b.hash.getD j 0) →
      a.hash.getD i 0 ≠ b.hash.getD i 0 →
      Hash.compareTo a b = if a.hash.getD i 0 < b.hash.getD i 0 then -1 else 1) ∧
    (Hash.equals a (some b) = true ↔ Hash.compareTo a b = 0) := by
  have hlen : a.hash.length = b.hash.length := by rw [a.size_eq, b.size_eq]
  have hzero : Hash.compareTo a b = 0 ↔ a.hash = b.hash :=
    compareBytes_eq_zero a.hash b.hash hlen
  refine ⟨compareBytes_self a.hash, compareBytes_cases a.hash b.hash,
    compareBytes_antisymm a.hash b.hash, ?_, compareBytes_trans a.hash b.hash c.hash, ?_, ?_⟩
  · rw [hzero]
    exact ⟨fun h => Hash.ext_hash h, fun h => by rw [h]⟩
  · intro i hi hpre hdiff
    exact compareBytes_first_diff i a.hash b.hash (by rw [a.size_eq]; exact hi)
      (by rw [b.size_eq]; exact hi) hpre hdiff
  · rw [equals_eq_true_iff, hzero]

/-- C4 witness: concrete hashes exercising transitivity and the
first-differing-byte clause. -/
theorem compareTo_spec_witness :
    Hash.compareTo zeroHash twoHash = -1 ∧
    Hash.compareTo zeroHash oneHash =
      (if zeroHash.hash.getD 31 0 < oneHash.hash.getD 31 0 then -1 else 1) := by
  constructor
  · exact (compareTo_spec zeroHash oneHash twoHash).2.2.2.2.1 (by decide) (by decide)
  · exact (compareTo_spec zeroHash oneHash twoHash).2.2.2.2.2.1 31 (by decide) (by decide)
      (by decide)

/-- C6: `parse` fails exactly when the prefix-stripped input has a non-hex
character, has odd length, or does not decode to 32 bytes (64 characters);
in the wrong-byte-count case the error carries the expected byte count 32
(and the actual count); otherwise it succeeds with the decoded bytes. -/
theorem parse_failure_conditions (hex : List Char) :
    ((∃ e, Hash.parse hex = .error e) ↔
      (∃ c ∈ parseClean hex, fromHexChar c = none) ∨
        (parseClean hex).length % 2 = 1 ∨ (parseClean hex).length ≠ 64) ∧
    ((∀ c ∈ parseClean hex, (fromHexChar c).isSome) → (parseClean hex).length % 2 = 0 →
      (parseClean hex).length ≠ 64 →
      Hash.parse hex = .error (.invalidLength 32 ((parseClean hex).length / 2))) ∧
    ((∀ c ∈ parseClean hex, (fromHexChar c).isSome) → (parseClean hex).length = 64 →
      ∃ (hsh : Hash) (bs : List Byte), decodeHex (parseClean hex) = .ok bs ∧
        Hash.parse hex = .ok hsh ∧ hsh.hash = bs) := by
  refine ⟨⟨?_, ?_⟩, ?_, ?_⟩
  · intro ⟨e, he⟩
    by_contra hcon
    push_neg at hcon
    obtain ⟨hnochar, hneodd, hlen64⟩ := hcon
    have hvalid : ∀ c ∈ parseClean hex, (fromHexChar c).isSome := by
      intro c hc
      rcases ho : fromHexChar c with _ | v
      · exact absurd ho (hnochar c hc)
      · simp
    obtain ⟨bs, hbs, hbslen⟩ := decodeHex_ok_of_valid _ hvalid (by omega)
    rw [Hash.parse, hbs] at he
    rw [show Except.bind (Except.ok bs) Hash.construct = Hash.construct bs from rfl] at he
    rw [construct_ok bs (by rw [hbslen, hlen64]; rfl)] at he
    simp at he
  · intro hcond
    rcases hdec : decodeHex (parseClean hex) with e | bs
    · exact ⟨e, by rw [Hash.parse, hdec]; rfl⟩
    · obtain ⟨hall, heven, hbslen⟩ := decodeHex_ok_inv _ _ hdec
      rcases hcond with ⟨c, hc, hnone⟩ | hodd | hne64
      · have := hall c hc
        rw [hnone] at this
        simp at this
      · omega
      · refine ⟨.invalidLength 32 bs.length, ?_⟩
        rw [Hash.parse, hdec]
        show Hash.construct bs = _
        rw [construct_err bs (by show bs.length ≠ 32; omega)]
        rfl
  · intro hvalid heven hne64
    obtain ⟨bs, hbs, hbslen⟩ := decodeHex_ok_of_valid _ hvalid heven
    rw [Hash.parse, hbs]
    rw [show Except.bind (Except.ok bs) Hash.construct = Hash.construct bs from rfl]
    rw [construct_err bs (by show bs.length ≠ 32; omega), hbslen]
    rfl
  · intro hvalid hlen64
    obtain ⟨bs, hbs, hbslen⟩ := decodeHex_ok_of_valid _ hvalid (by omega)
    have hbs32 : bs.length = HashLENGTH := by rw [hbslen, hlen64]; rfl
    refine ⟨⟨bs, hbs32⟩, bs, hbs, ?_, rfl⟩
    rw [Hash.parse, hbs]
    exact construct_ok bs hbs32

/-- C6 witness: the 64-zeros string parses; a 4-character hex string is
rejected with the length error carrying the expected byte count 32. -/
theorem parse_failure_conditions_witness :
    Hash.parse ('1' :: '2' :: '3' :: '4' :: []) =
      .error (.invalidLength 32 ((parseClean ('1' :: '2' :: '3' :: '4' :: [])).length / 2)) ∧
    ∃ (hsh : Hash) (bs : List Byte), decodeHex (parseClean zeros64) = .ok bs ∧
      Hash.parse zeros64 = .ok hsh ∧ hsh.hash = bs := by
  constructor
  · exact (parse_failure_conditions ('1' :: '2' :: '3' :: '4' :: [])).2.1
      (by decide) (by decide) (by decide)
  · exact (parse_failure_conditions zeros64).2.2 (by decide) (by decide)
